import Mathlib

/-!  Verification development for the mongoose-query-data-table plugin
(file src/index.ts of the repository).  The filter compiler
(dataTableFilter), the pagination calculator (dataTablePaginate) and the
distinct-value aggregation pipeline (dataTableGetFilterList) are embedded
shallowly below, following the JavaScript source line by line; theorems
about the specification claims follow the definitions. -/

namespace MQDT

/-! ## Character-level string helpers

The JavaScript code manipulates strings with split, trim and regular
expressions.  We embed those operations on explicit character lists so that
every definition evaluates by kernel reduction. -/

/-- Split a character list at every occurrence of the separator, keeping
empty pieces, exactly like the JavaScript String.split with a one-character
separator ("" splits to [""], "a,,b" to ["a","","b"]). -/
def charSplitOn (sep : Char) : List Char → List (List Char)
  | [] => [[]]
  | c :: rest =>
    match charSplitOn sep rest with
    | [] => if c = sep then [[], []] else [[c]]
    | h :: t => if c = sep then [] :: h :: t else (c :: h) :: t

/-- The JavaScript LineTerminator characters: LF, CR, LS and PS.  The dot
of a regular expression without the dotAll flag matches everything except
these. -/
def isLineTerm (c : Char) : Bool :=
  c = '\n' || c = '\r' || c = '\u2028' || c = '\u2029'

/-- The characters stripped by the JavaScript String.trim and skipped by
Number.parseInt: the ECMAScript WhiteSpace set (tab, vertical tab, form
feed, space, no-break space, zero-width no-break space and the Unicode
space separators) together with the LineTerminator set. -/
def isJsWhitespace (c : Char) : Bool :=
  c = '\t' || c = '\u000B' || c = '\u000C' || c = ' ' || c = '\u00A0' ||
  c = '\uFEFF' || c = '\u1680' || c = '\u2000' || c = '\u2001' ||
  c = '\u2002' || c = '\u2003' || c = '\u2004' || c = '\u2005' ||
  c = '\u2006' || c = '\u2007' || c = '\u2008' || c = '\u2009' ||
  c = '\u200A' || c = '\u202F' || c = '\u205F' || c = '\u3000' ||
  isLineTerm c

/-- Remove whitespace from both ends of a character list, the embedding of
the JavaScript String.trim applied to each clause argument piece. -/
def trimChars (l : List Char) : List Char :=
  ((l.dropWhile isJsWhitespace).reverse.dropWhile isJsWhitespace).reverse

/-- Character class of the JavaScript regular-expression atom [^()]. -/
def notParen (c : Char) : Bool := c != '(' && c != ')'

/-- One attempt of the clause alternative of the token regular expression
/(([,;])|([^()]+\([^)]+\)))/g at the current position: a maximal nonempty
run of non-parenthesis characters, an opening parenthesis, a maximal
nonempty run of non-closing characters, a closing parenthesis.  Returns the
whole matched token and the remaining input. -/
def tryClause (s : List Char) : Option (List Char × List Char) :=
  let run1 := s.takeWhile notParen
  if run1.isEmpty then none else
  match s.dropWhile notParen with
  | '(' :: s2 =>
    let run2 := s2.takeWhile (fun c => c != ')')
    if run2.isEmpty then none else
    match s2.dropWhile (fun c => c != ')') with
    | ')' :: rest => some (run1 ++ '(' :: (run2 ++ [')']), rest)
    | _ => none
  | _ => none

/-- Fuelled left-to-right global scan of the token regular expression
/(([,;])|([^()]+\([^)]+\)))/g: at each position the delimiter alternative
is tried first, then the clause alternative; on failure the scan advances
one character.  The fuel only has to dominate the input length. -/
def tokenizeF : Nat → List Char → List (List Char)
  | 0, _ => []
  | _ + 1, [] => []
  | fuel + 1, c :: rest =>
    if c = ',' || c = ';' then [c] :: tokenizeF fuel rest
    else
      match tryClause (c :: rest) with
      | some (tok, rest2) => tok :: tokenizeF fuel rest2
      | none => tokenizeF fuel rest

/-- The token list produced by terms.match(matchFilters) in the source;
an input with no match is represented by the empty token list. -/
def tokenize (l : List Char) : List (List Char) := tokenizeF l.length l

/-- Embedding of the regular expression /^(.*)\((.*)\)$/ used per token:
succeeds when the token ends with a closing parenthesis, contains an
opening parenthesis before it and has no JavaScript line-terminator
character (the dot of the pattern does not match those); the field part is
everything before the last opening parenthesis and the raw argument part is
everything between it and the final closing parenthesis. -/
def matchParams (s : List Char) : Option (List Char × List Char) :=
  if s.any isLineTerm then none
  else
    match s.reverse with
    | ')' :: rest =>
      let argsRev := rest.takeWhile (fun c => c != '(')
      match rest.dropWhile (fun c => c != '(') with
      | '(' :: fieldRev => some (fieldRev.reverse, argsRev.reverse)
      | _ => none
    | _ => none

/-! ## The compiled predicate tree -/

/-- Value placed at a field by the match and contains operations: either a
plain string (exact equality) or a JavaScript RegExp with its flags. -/
inductive Payload where
  | lit (v : String)
  | regex (pattern : String) (flags : String)
  deriving DecidableEq

/-- Argument of a comparison operator: the single remaining argument, or
the full ordered argument list when more than one remains. -/
inductive OpArg where
  | one (v : String)
  | many (vs : List String)
  deriving DecidableEq

/-- One compiled clause predicate.  fieldPayload is the result of the match
and contains operations, fieldOp the field-scoped comparison object.
protoResult records the value produced when the operation name hits a
non-throwing inherited member of Object.prototype: for toString the string
value "[object Undefined]", for constructor an Object wrapper of the
field argument and for isPrototypeOf the boolean false; all are non-null
JavaScript values that survive the null filter, modelled opaquely by this
constructor. -/
inductive Pred where
  | fieldPayload (field : String) (p : Payload)
  | fieldOp (field : String) (op : String) (arg : OpArg)
  | protoResult (opName : String) (field : String)
  deriving DecidableEq

/-- The single error the embedded compiler can produce, standing for a
JavaScript TypeError. -/
inductive JsErr where
  | typeError
  deriving DecidableEq

/-- The allow-list of comparison operator names from the source. -/
def allowedOperators : List String :=
  ["lte", "lt", "gt", "gte", "in", "nin", "eq", "ne", "exists", "type"]

/-- Inherited members of Object.prototype whose invocation as
operator(field, ...params) throws a TypeError: the accessor value of
proto is Object.prototype itself, which is not callable, and the listed
methods coerce their this argument (undefined in a module, which is strict
code) with ToObject, which throws before any use of the arguments. -/
def protoThrowNames : List String :=
  ["hasOwnProperty", "propertyIsEnumerable",
   "toLocaleString", "valueOf", "__defineGetter__", "__defineSetter__",
   "__lookupGetter__", "__lookupSetter__", "__proto__"]

/-- Inherited members of Object.prototype whose invocation returns a value
instead of throwing: toString returns "[object Undefined]", constructor
(the Object function) returns a wrapper object, and isPrototypeOf returns
the boolean false, because its first step answers false for a primitive
argument before the this argument is coerced.  All three results differ
from null and therefore survive the null filter as junk constraints. -/
def protoReturnNames : List String := ["toString", "constructor", "isPrototypeOf"]

/-- Compilation of one colon-split argument of a clause, after the
match-defaulting step: the embedding of the last map of the source
(shift the operation name, return null for a falsy name, call the
operations table through JavaScript property lookup, fall back to the
allow-list, else null).  Property lookup on the object literal also finds
the inherited members of Object.prototype, modelled explicitly. -/
def compileParam (field : String) (ps : List String) : Except JsErr (Option Pred) :=
  match ps with
  | [] => .ok none
  | op :: rest =>
    if op = "" then .ok none
    else if op = "match" then
      let v := rest.headD ""
      let flags := rest.getD 1 ""
      .ok (some (.fieldPayload field
        (if flags = "i" then .regex ("^" ++ v ++ "$") "i" else .lit v)))
    else if op = "contains" then
      let v := rest.headD ""
      let flags := rest.getD 1 ""
      .ok (some (.fieldPayload field (.regex v (if flags = "i" then "ig" else "g"))))
    else if op ∈ protoThrowNames then .error .typeError
    else if op ∈ protoReturnNames then .ok (some (.protoResult op field))
    else if op ∈ allowedOperators then
      .ok (some (.fieldOp field op
        (if rest.length > 1 then .many rest else .one (rest.headD ""))))
    else .ok none

/-- Effectful map over a list in the Except monad, left to right, the
embedding of the sequential Array.prototype.map of the source under an
exception. -/
def exMapM (f : α → Except JsErr β) : List α → Except JsErr (List β)
  | [] => .ok []
  | a :: as => do
    let b ← f a
    let bs ← exMapM f as
    pure (b :: bs)

/-- Equality of compiler results is decidable, which lets concrete runs of
the compiler be checked by evaluation. -/
instance {ε α : Type} [DecidableEq ε] [DecidableEq α] : DecidableEq (Except ε α) := fun x y =>
  match x, y with
  | .ok a, .ok b =>
    if h : a = b then .isTrue (congrArg Except.ok h)
    else .isFalse fun hh => h (Except.ok.inj hh)
  | .ok _, .error _ => .isFalse fun hh => Except.noConfusion hh
  | .error _, .ok _ => .isFalse fun hh => Except.noConfusion hh
  | .error e, .error f =>
    if h : e = f then .isTrue (congrArg Except.error h)
    else .isFalse fun hh => h (Except.error.inj hh)

/-- Compilation of one token of the filter string: parse the
field(rawParams) shape (a failure contributes nothing), split the raw
arguments on commas, each argument on colons, trim every piece, default a
colon-free argument to the match operation, compile every argument and
drop the null results. -/
def compileClause (tok : List Char) : Except JsErr (List Pred) :=
  match matchParams tok with
  | none => .ok []
  | some (field, raw) =>
    let args := (charSplitOn ',' raw).map
      (fun a => ((charSplitOn ':' a).map (fun p => (trimChars p).asString)))
    let args := args.map (fun ps => if ps.length ≤ 1 then ["match", ps.headD ""] else ps)
    (exMapM (compileParam field.asString) args).map (·.filterMap id)

/-! ## Token grouping (the for loop over the matches) -/

/-- Pair every even-indexed token with the token right before it, the
embedding of the loop for (let i = 0; i < filters.length; i += 2) reading
filters[i - 1] as delimiter and filters[i] as clause. -/
def pairUp : Option (List Char) → List (List Char) → List (Option (List Char) × List Char)
  | _, [] => []
  | d, [f] => [(d, f)]
  | d, f :: g :: rest => (d, f) :: pairUp (some g) rest

/-- The loop body: a semicolon delimiter flushes the current AND group
into the OR list and starts a new group with the clause; any other
delimiter appends the clause to the current group.  After the loop a
nonempty AND group is flushed. -/
def goGroups : List (Option (List Char) × List Char) →
    List (List (List Char)) → List (List Char) → List (List (List Char))
  | [], orB, andB => if andB.isEmpty then orB else orB ++ [andB]
  | (d, f) :: rest, orB, andB =>
    if d = some [';'] then goGroups rest (orB ++ [andB]) [f]
    else goGroups rest orB (andB ++ [f])

/-- The OR-of-AND grouping of the token list built by the source loop. -/
def buildGroups (tokens : List (List Char)) : List (List (List Char)) :=
  goGroups (pairUp none tokens) [] []

/-- Compilation of one AND group: compile each token and flatten, the
embedding of the inner map with its concatenating reduce. -/
def compileGroup (g : List (List Char)) : Except JsErr (List Pred) :=
  (exMapM compileClause g).map List.flatten

/-- The whole dataTableFilter compiler on a character list.  The result
none is the pass-through case in which the source returns this unchanged;
some gives the nonempty OR list of nonempty AND lists passed to find. -/
def dataTableFilterL (terms : List Char) : Except JsErr (Option (List (List Pred))) :=
  if terms.isEmpty then .ok none
  else
    let tokens := tokenize terms
    if tokens.isEmpty then .ok none
    else do
      let compiled ← exMapM compileGroup (buildGroups tokens)
      let orL := compiled.filter (fun l => !l.isEmpty)
      pure (if orL.isEmpty then none else some orL)

/-- dataTableFilter of the source, on a Lean string. -/
def dataTableFilter (terms : String) : Except JsErr (Option (List (List Pred))) :=
  dataTableFilterL terms.data

/-! ## Semantics of the produced patterns

The match and contains operations build JavaScript RegExp values.  For the
patterns the compiler actually produces from metacharacter-free argument
text we give the test semantics explicitly: an anchored pattern with the
i flag is case-insensitive whole-string equality, an unanchored literal
pattern is (case-insensitive when flagged) substring containment. -/

/-- Containment of one character list in another as a contiguous segment. -/
def containsSeg (hay nee : List Char) : Bool :=
  match hay with
  | [] => nee.isEmpty
  | _ :: t => startsWithSeg hay nee || containsSeg t nee
where
  startsWithSeg : List Char → List Char → Bool
    | _, [] => true
    | [], _ :: _ => false
    | h :: hs, n :: ns => h == n && startsWithSeg hs ns

/-- Test semantics of the RegExp values the compiler produces, restricted
to metacharacter-free cores: an anchored core compares whole strings, an
unanchored core is substring containment; the i flag lowers the case on
both sides. -/
def regexTest (pattern flags s : String) : Bool :=
  let ci := flags.data.contains 'i'
  let low := fun (l : List Char) => if ci then l.map Char.toLower else l
  match pattern.data with
  | '^' :: rest =>
    if rest.getLast? = some '$' then low rest.dropLast == low s.data
    else containsSeg (low s.data) (low pattern.data)
  | _ => containsSeg (low s.data) (low pattern.data)

/-- Whether a document field value (a string) satisfies a compiled match
or contains payload. -/
def payloadAccepts : Payload → String → Bool
  | .lit v, s => v == s
  | .regex pat flags, s => regexTest pat flags s

/-! ## Pagination (dataTablePaginate) -/

/-- A JavaScript number restricted to the integral values the pagination
code manipulates, together with NaN. -/
inductive JNum where
  | nan
  | int (v : ℤ)
  deriving DecidableEq

/-- A JavaScript value of type number or string, or absent (undefined) or
null, as received by dataTablePaginate. -/
inductive JSVal where
  | undef
  | null
  | num (v : ℤ)
  | str (s : String)
  deriving DecidableEq

/-- Number.parseInt with radix 10: skip leading whitespace, read an
optional sign and then a maximal digit run; no digits gives NaN. -/
def parseIntJS (s : String) : JNum :=
  let l := s.data.dropWhile isJsWhitespace
  let signed : Bool × List Char :=
    match l with
    | '-' :: t => (true, t)
    | '+' :: t => (false, t)
    | t => (false, t)
  let digits := signed.2.takeWhile Char.isDigit
  if digits.isEmpty then .nan
  else
    let n : ℤ := digits.foldl (fun acc c => acc * 10 + (c.toNat - '0'.toNat : ℤ)) 0
    .int (if signed.1 then -n else n)

/-- The comparison n < 0 of the source; false for NaN as in JavaScript. -/
def jltZero : JNum → Bool
  | .nan => false
  | .int v => v < 0

/-- Subtraction of one, NaN-propagating. -/
def jsubOne : JNum → JNum
  | .nan => .nan
  | .int v => .int (v - 1)

/-- Multiplication, NaN-propagating. -/
def jmul : JNum → JNum → JNum
  | .nan, _ => .nan
  | _, .nan => .nan
  | .int a, .int b => .int (a * b)

/-- dataTablePaginate of the source: default parameters 1 and 0 replace
undefined arguments, a string argument goes through parseInt, a null
argument falls to the nullish-coalescing defaults (1, and the configured
defaultItemsPerPage), itemsPerPage below zero is clamped to zero, and a
negative page index is clamped to zero before multiplying.  The result is
the pair (skip, limit). -/
def dataTablePaginate (defaultIpp : ℤ) (pageArg ippArg : JSVal) : JNum × JNum :=
  let pageArg := if pageArg = .undef then .num 1 else pageArg
  let ippArg := if ippArg = .undef then .num 0 else ippArg
  let page : JNum := jsubOne (match pageArg with
    | .str s => parseIntJS s
    | .num v => .int v
    | .null => .int 1
    | .undef => .int 1)
  let ipp : JNum := match ippArg with
    | .str s => parseIntJS s
    | .num v => .int v
    | .null => .int defaultIpp
    | .undef => .int defaultIpp
  let limit := if jltZero ipp then .int 0 else ipp
  let skip := jmul (if jltZero page then .int 0 else page) limit
  (skip, limit)

/-! ## Distinct-value aggregation (dataTableGetFilterList)

The source sends the backing store an aggregation pipeline: project the
field, six unwind stages, a group with count, a projection and an
ascending sort by value.  The store semantics of those stages (unwind
emits one document per array element and drops null, missing and empty
arrays; group collects identical values with their multiplicity; sort
orders by the value comparison null < numbers < strings < arrays with
arrays compared elementwise) are embedded below over an explicit document
value type. -/

mutual
/-- A document field value: null, an integer, a string or an array. -/
inductive BVal where
  | null
  | int (n : ℤ)
  | str (s : String)
  | arr (xs : BList)

/-- Arrays of document values, as a mutual inductive so that all the
comparison functions and proofs are structurally recursive. -/
inductive BList where
  | nil
  | cons (hd : BVal) (tl : BList)
end

/-- Build an embedded array from a Lean list of values. -/
def bl : List BVal → BList
  | [] => .nil
  | v :: vs => .cons v (bl vs)

/-- The Lean list underlying an embedded array. -/
def BList.toList : BList → List BVal
  | .nil => []
  | .cons h t => h :: t.toList

/-- Comparison of two integers as an Ordering. -/
def intCmp (a b : ℤ) : Ordering :=
  if a < b then .lt else if a = b then .eq else .gt

/-- Comparison of two characters by code point. -/
def charCmp (a b : Char) : Ordering :=
  intCmp a.toNat b.toNat

/-- Lexicographic comparison of two character lists. -/
def charsCmp : List Char → List Char → Ordering
  | [], [] => .eq
  | [], _ :: _ => .lt
  | _ :: _, [] => .gt
  | a :: as, b :: bs =>
    match charCmp a b with
    | .eq => charsCmp as bs
    | o => o

mutual
/-- Value comparison of the backing store order: null before numbers
before strings before arrays, numbers and strings by their own order and
arrays elementwise. -/
def bcmp : BVal → BVal → Ordering
  | .null, .null => .eq
  | .null, _ => .lt
  | _, .null => .gt
  | .int a, .int b => intCmp a b
  | .int _, _ => .lt
  | _, .int _ => .gt
  | .str a, .str b => charsCmp a.data b.data
  | .str _, _ => .lt
  | _, .str _ => .gt
  | .arr a, .arr b => bcmpL a b

/-- Elementwise comparison of arrays, shorter prefix first. -/
def bcmpL : BList → BList → Ordering
  | .nil, .nil => .eq
  | .nil, .cons _ _ => .lt
  | .cons _ _, .nil => .gt
  | .cons a as, .cons b bs =>
    match bcmp a b with
    | .eq => bcmpL as bs
    | o => o
end

/-- Boolean order used for sorting: not strictly greater. -/
def ble (a b : BVal) : Bool := bcmp a b != Ordering.gt

/-- Boolean equality of values through the comparison. -/
def bv (a b : BVal) : Bool := bcmp a b == Ordering.eq

/-- One unwind stage: an array value emits one document per element, a
null value emits nothing, any other value passes through unchanged. -/
def unwindStep (vs : List BVal) : List BVal :=
  (vs.map (fun v => match v with
    | .arr xs => xs.toList
    | .null => []
    | v => [v])).flatten

/-- Insertion into a list sorted by ble. -/
def insertB (v : BVal) : List BVal → List BVal
  | [] => [v]
  | w :: ws => if ble v w then v :: w :: ws else w :: insertB v ws

/-- Insertion sort by the store value order. -/
def sortB : List BVal → List BVal
  | [] => []
  | v :: vs => insertB v (sortB vs)

/-- Run-length counting of consecutive equal values: the accumulator holds
the value of the open run and its multiplicity so far. -/
def rleAux : BVal → Nat → List BVal → List (BVal × Nat)
  | v, n, [] => [(v, n)]
  | v, n, w :: ws => if bv v w then rleAux v (n + 1) ws else (v, n) :: rleAux w 1 ws

/-- Grouping of a value list into value-count pairs of consecutive runs. -/
def rle : List BVal → List (BVal × Nat)
  | [] => []
  | v :: vs => rleAux v 1 vs

/-- The observable result of the aggregation pipeline of
dataTableGetFilterList: the projected field values (none when the document
lacks the field) are unwound six times, grouped with multiplicities and
emitted sorted ascending by value.  Grouping after sorting produces the
same pairs as the group stage followed by the sort stage, because runs of
a sorted list are exactly the groups. -/
def dataTableGetFilterList (docs : List (Option BVal)) : List (BVal × Nat) :=
  rle (sortB (unwindStep^[6] (docs.filterMap id)))

/-- A value wrapped in the given number of one-element array layers, used
to exhibit the depth-six flattening boundary. -/
def wrapN : Nat → BVal → BVal
  | 0, v => v
  | n + 1, v => .arr (.cons (wrapN n v) .nil)

/-- The even-indexed elements of a list: positions 0, 2, 4, ...  These are
exactly the tokens the source loop processes as clauses. -/
def evenIdx : List α → List α
  | [] => []
  | [a] => [a]
  | a :: _ :: rest => a :: evenIdx rest

/-- The odd-indexed elements of a list: positions 1, 3, 5, ...  These are
the tokens the source loop reads as delimiters. -/
def oddIdx : List α → List α
  | [] => []
  | _ :: rest => evenIdx rest

/-- Join a list of character lists with a separator character between
consecutive elements, the inverse of charSplitOn on separator-free
pieces. -/
def joinSep (sep : Char) : List (List Char) → List Char
  | [] => []
  | [a] => a
  | a :: b :: rest => a ++ sep :: joinSep sep (b :: rest)

/-- The shape of one clause token: a field part, an opening parenthesis,
the raw argument text and a closing parenthesis. -/
def clauseToken (field inner : List Char) : List Char :=
  field ++ '(' :: (inner ++ [')'])

/-- Compilation of one comma-separated argument of a clause: split on
colons, trim every piece, default a colon-free argument to the match
operation and dispatch.  This is the per-argument composition of the maps
of the source; the whole clause is the independent compilation of its
arguments by this function. -/
def compileArg (field : String) (a : List Char) : Except JsErr (Option Pred) :=
  let ps := (charSplitOn ':' a).map (fun p => (trimChars p).asString)
  compileParam field (if ps.length ≤ 1 then ["match", ps.headD ""] else ps)

/-- A field part that the tokenizer scans as one clause head: nonempty,
not starting with a delimiter, free of parentheses and of line
terminators. -/
abbrev FieldOk (field : List Char) : Prop :=
  field ≠ [] ∧ field.head? ≠ some ',' ∧ field.head? ≠ some ';' ∧
    ∀ c ∈ field, c ≠ '(' ∧ c ≠ ')' ∧ isLineTerm c = false

/-- An operation name written literally in a clause: free of parentheses,
delimiters, colons, line terminators and whitespace. -/
abbrev OpOk (o : List Char) : Prop :=
  ∀ c ∈ o, c ≠ '(' ∧ c ≠ ')' ∧ c ≠ ',' ∧ c ≠ ':' ∧ isLineTerm c = false ∧
    isJsWhitespace c = false

/-- One comma-separated clause argument: free of parentheses, commas and
line terminators (colons and interior whitespace are allowed). -/
abbrev ArgOk (a : List Char) : Prop :=
  ∀ c ∈ a, c ≠ '(' ∧ c ≠ ')' ∧ c ≠ ',' ∧ isLineTerm c = false

/-! ## Lemmas about the grouping loop and the pass-through result -/

theorem exMapM_congr_ok {α β : Type} (f : α → Except JsErr β) (b : β) :
    ∀ l : List α, (∀ a ∈ l, f a = .ok b) → exMapM f l = .ok (l.map fun _ => b)
  | [], _ => rfl
  | a :: as, h => by
    have ha : f a = .ok b := h a (by simp)
    have ih := exMapM_congr_ok f b as (fun x hx => h x (by simp [hx]))
    simp [exMapM, ha, ih]
    rfl

theorem compileGroup_ok_nil (g : List (List Char))
    (h : ∀ t ∈ g, compileClause t = .ok []) : compileGroup g = .ok [] := by
  unfold compileGroup
  rw [exMapM_congr_ok compileClause [] g h]
  have : (g.map fun _ => ([] : List Pred)).flatten = [] := by
    induction g with
    | nil => rfl
    | cons a t ih => simpa using ih
  simp [Except.map, this]

theorem goGroups_mem :
    ∀ (pairs : List (Option (List Char) × List Char)) (orB : List (List (List Char)))
      (andB g : List (List Char)) (t : List Char),
      g ∈ goGroups pairs orB andB → t ∈ g →
      (∃ g0 ∈ orB, t ∈ g0) ∨ t ∈ andB ∨ t ∈ pairs.map Prod.snd
  | [], orB, andB, g, t, hg, ht => by
    unfold goGroups at hg
    by_cases he : andB.isEmpty
    · simp only [he, if_true] at hg
      exact Or.inl ⟨g, hg, ht⟩
    · simp only [he, if_false] at hg
      rcases List.mem_append.mp hg with hg2 | hg2
      · exact Or.inl ⟨g, hg2, ht⟩
      · rw [List.mem_singleton.mp hg2] at ht
        exact Or.inr (Or.inl ht)
  | (d, f) :: rest, orB, andB, g, t, hg, ht => by
    unfold goGroups at hg
    by_cases hd : d = some [';']
    · simp only [hd, if_true] at hg
      rcases goGroups_mem rest (orB ++ [andB]) [f] g t hg ht with ⟨g0, hg0, ht0⟩ | h | h
      · rcases List.mem_append.mp hg0 with h0 | h0
        · exact Or.inl ⟨g0, h0, ht0⟩
        · rw [List.mem_singleton.mp h0] at ht0
          exact Or.inr (Or.inl ht0)
      · rcases List.mem_singleton.mp h with rfl
        exact Or.inr (Or.inr (by simp))
      · exact Or.inr (Or.inr (by simp [h]))
    · simp only [hd, if_false] at hg
      rcases goGroups_mem rest orB (andB ++ [f]) g t hg ht with ⟨g0, hg0, ht0⟩ | h | h
      · exact Or.inl ⟨g0, hg0, ht0⟩
      · rcases List.mem_append.mp h with h0 | h0
        · exact Or.inr (Or.inl h0)
        · rcases List.mem_singleton.mp h0 with rfl
          exact Or.inr (Or.inr (by simp))
      · exact Or.inr (Or.inr (by simp [h]))

theorem pairUp_map_snd :
    ∀ (d : Option (List Char)) (l : List (List Char)),
      (pairUp d l).map Prod.snd = evenIdx l
  | _, [] => rfl
  | _, [_] => rfl
  | d, a :: b :: rest => by
    simp [pairUp, evenIdx, pairUp_map_snd (some b) rest]

theorem evenIdx_subset : ∀ (l : List α) (t : α), t ∈ evenIdx l → t ∈ l
  | [], _, h => by simp [evenIdx] at h
  | [a], t, h => by simpa [evenIdx] using h
  | a :: b :: rest, t, h => by
    rcases (by simpa [evenIdx] using h : t = a ∨ t ∈ evenIdx rest) with rfl | h2
    · simp
    · simp [evenIdx_subset rest t h2]

theorem buildGroups_mem (tokens : List (List Char)) (g : List (List Char))
    (t : List Char) (hg : g ∈ buildGroups tokens) (ht : t ∈ g) :
    t ∈ evenIdx tokens := by
  rcases goGroups_mem (pairUp none tokens) [] [] g t hg ht with ⟨g0, hg0, _⟩ | h | h
  · simp at hg0
  · simp at h
  · rwa [pairUp_map_snd] at h

/-- Shared pass-through lemma: when every clause-position token compiles
to no predicate, the compiler leaves the query unchanged. -/
theorem filterL_passthrough (terms : List Char)
    (h : ∀ t ∈ evenIdx (tokenize terms), compileClause t = .ok []) :
    dataTableFilterL terms = .ok none := by
  unfold dataTableFilterL
  by_cases he : terms.isEmpty
  · simp [he]
  · by_cases ht : (tokenize terms).isEmpty
    · simp [he, ht]
    · have hg : ∀ g ∈ buildGroups (tokenize terms), compileGroup g = .ok [] := by
        intro g hgmem
        exact compileGroup_ok_nil g (fun t htg => h t (buildGroups_mem _ g t hgmem htg))
      have hmap := exMapM_congr_ok compileGroup ([] : List Pred)
        (buildGroups (tokenize terms)) hg
      have hfil : ∀ gs : List (List (List Char)),
          (gs.map fun _ => ([] : List Pred)).filter (fun l => !l.isEmpty) = [] := by
        intro gs
        induction gs with
        | nil => rfl
        | cons a t ih => simpa using ih
      simp [he, ht, hmap, hfil]

/-! ## Shape lemmas for a single well-formed clause token -/

theorem isEmpty_false_of_ne_nil {l : List Char} (h : l ≠ []) : l.isEmpty = false := by
  cases l with
  | nil => exact absurd rfl h
  | cons a t => rfl

theorem takeWhile_append_all (p : Char → Bool) :
    ∀ (l m : List Char), (∀ c ∈ l, p c = true) →
      (l ++ m).takeWhile p = l ++ m.takeWhile p
  | [], m, _ => rfl
  | c :: l, m, h => by
    have hc : p c = true := h c (by simp)
    simp only [List.cons_append, List.takeWhile_cons, hc, if_true]
    rw [takeWhile_append_all p l m (fun x hx => h x (by simp [hx]))]

theorem dropWhile_append_all (p : Char → Bool) :
    ∀ (l m : List Char), (∀ c ∈ l, p c = true) →
      (l ++ m).dropWhile p = m.dropWhile p
  | [], m, _ => rfl
  | c :: l, m, h => by
    have hc : p c = true := h c (by simp)
    simp only [List.cons_append, List.dropWhile_cons, hc, if_true]
    exact dropWhile_append_all p l m (fun x hx => h x (by simp [hx]))

theorem dropWhile_all_false (p : Char → Bool) (l : List Char)
    (h : ∀ c ∈ l, p c = false) : l.dropWhile p = l := by
  cases l with
  | nil => rfl
  | cons c t => simp [List.dropWhile_cons, h c (by simp)]

theorem trimChars_id (l : List Char) (h : ∀ c ∈ l, isJsWhitespace c = false) :
    trimChars l = l := by
  unfold trimChars
  rw [dropWhile_all_false _ l h,
    dropWhile_all_false _ l.reverse (fun c hc => h c (List.mem_reverse.mp hc)),
    List.reverse_reverse]

theorem charSplitOn_ne_nil (sep : Char) : ∀ l, charSplitOn sep l ≠ []
  | [] => by simp [charSplitOn]
  | c :: rest => by
    unfold charSplitOn
    cases h : charSplitOn sep rest with
    | nil => by_cases hc : c = sep <;> simp [hc]
    | cons a t => by_cases hc : c = sep <;> simp [hc]

theorem charSplitOn_no_sep (sep : Char) :
    ∀ l, (∀ c ∈ l, c ≠ sep) → charSplitOn sep l = [l]
  | [], _ => rfl
  | c :: rest, h => by
    unfold charSplitOn
    rw [charSplitOn_no_sep sep rest (fun x hx => h x (by simp [hx]))]
    simp [h c (by simp)]

theorem charSplitOn_append (sep : Char) :
    ∀ (l m : List Char), (∀ c ∈ l, c ≠ sep) →
      charSplitOn sep (l ++ sep :: m) = l :: charSplitOn sep m
  | [], m, _ => by
    rw [List.nil_append]
    simp only [charSplitOn]
    cases h : charSplitOn sep m with
    | nil => exact absurd h (charSplitOn_ne_nil sep m)
    | cons a t => simp
  | c :: l, m, h => by
    simp only [List.cons_append, charSplitOn, List.append_eq]
    rw [charSplitOn_append sep l m (fun x hx => h x (by simp [hx]))]
    simp [h c (by simp)]

theorem charSplitOn_joinSep (sep : Char) :
    ∀ args : List (List Char), args ≠ [] →
      (∀ a ∈ args, ∀ c ∈ a, c ≠ sep) →
      charSplitOn sep (joinSep sep args) = args
  | [], h, _ => absurd rfl h
  | [a], _, h => by
    unfold joinSep
    exact charSplitOn_no_sep sep a (h a (by simp))
  | a :: b :: rest, _, h => by
    unfold joinSep
    rw [charSplitOn_append sep a (joinSep sep (b :: rest)) (h a (by simp)),
      charSplitOn_joinSep sep (b :: rest) (by simp)
        (fun x hx => h x (List.mem_cons_of_mem a hx))]

theorem mem_joinSep (sep : Char) :
    ∀ (args : List (List Char)) (c : Char),
      c ∈ joinSep sep args → c = sep ∨ ∃ a ∈ args, c ∈ a
  | [], c, h => by simp [joinSep] at h
  | [a], c, h => Or.inr ⟨a, by simp, by simpa [joinSep] using h⟩
  | a :: b :: rest, c, h => by
    simp only [joinSep, List.mem_append, List.mem_cons] at h
    rcases h with h | h | h
    · exact Or.inr ⟨a, by simp, h⟩
    · exact Or.inl h
    · rcases mem_joinSep sep (b :: rest) c h with h2 | ⟨x, hx, hcx⟩
      · exact Or.inl h2
      · exact Or.inr ⟨x, List.mem_cons_of_mem a hx, hcx⟩

theorem exMapM_map {α β γ : Type} (f : β → Except JsErr γ) (g : α → β) :
    ∀ l : List α, exMapM f (l.map g) = exMapM (fun a => f (g a)) l
  | [] => rfl
  | a :: as => by simp [exMapM, exMapM_map f g as]

theorem tokenizeF_nil : ∀ f, tokenizeF f [] = []
  | 0 => rfl
  | _ + 1 => rfl

theorem exBind_ok {α β : Type} (a : α) (f : α → Except JsErr β) :
    (Except.ok a >>= f) = f a := rfl

theorem exBind_error {α β : Type} (e : JsErr) (f : α → Except JsErr β) :
    ((Except.error e : Except JsErr α) >>= f) = .error e := rfl

theorem exMap_ok {α β : Type} (a : α) (f : α → β) :
    (Except.ok a : Except JsErr α).map f = .ok (f a) := rfl

theorem exMap_error {α β : Type} (e : JsErr) (f : α → β) :
    (Except.error e : Except JsErr α).map f = .error e := rfl

theorem tryClause_clauseToken (field inner : List Char)
    (hfne : field ≠ [])
    (hfc : ∀ c ∈ field, c ≠ '(' ∧ c ≠ ')')
    (hine : inner ≠ [])
    (hic : ∀ c ∈ inner, c ≠ ')') :
    tryClause (clauseToken field inner) = some (clauseToken field inner, []) := by
  have h1 : (clauseToken field inner).takeWhile notParen = field := by
    unfold clauseToken
    rw [takeWhile_append_all notParen field _
      (fun c hc => by simp [notParen, (hfc c hc).1, (hfc c hc).2])]
    simp [List.takeWhile_cons, notParen]
  have h2 : (clauseToken field inner).dropWhile notParen = '(' :: (inner ++ [')']) := by
    unfold clauseToken
    rw [dropWhile_append_all notParen field _
      (fun c hc => by simp [notParen, (hfc c hc).1, (hfc c hc).2])]
    simp [List.dropWhile_cons, notParen]
  have h3 : (inner ++ [')']).takeWhile (fun c => c != ')') = inner := by
    rw [takeWhile_append_all _ inner _ (fun c hc => by simp [hic c hc])]
    simp
  have h4 : (inner ++ [')']).dropWhile (fun c => c != ')') = [')'] := by
    rw [dropWhile_append_all _ inner _ (fun c hc => by simp [hic c hc])]
    simp
  simp only [tryClause, h1, h2, h3, h4, isEmpty_false_of_ne_nil hfne,
    isEmpty_false_of_ne_nil hine]
  simp [clauseToken]

theorem tokenize_clauseToken (field inner : List Char)
    (hf : FieldOk field) (hine : inner ≠ [])
    (hic : ∀ c ∈ inner, c ≠ ')') :
    tokenize (clauseToken field inner) = [clauseToken field inner] := by
  obtain ⟨hfne, hh1, hh2, hfc⟩ := hf
  have htry := tryClause_clauseToken field inner hfne
    (fun c hc => ⟨(hfc c hc).1, (hfc c hc).2.1⟩) hine hic
  cases field with
  | nil => exact absurd rfl hfne
  | cons c f =>
    have hcd1 : c ≠ ',' := by simpa using hh1
    have hcd2 : c ≠ ';' := by simpa using hh2
    have hshape : clauseToken (c :: f) inner = c :: (f ++ '(' :: (inner ++ [')'])) := by
      simp [clauseToken]
    rw [hshape] at htry ⊢
    unfold tokenize
    simp only [List.length_cons, tokenizeF, hcd1, hcd2, htry]
    simp [tokenizeF_nil]

theorem matchParams_clauseToken (field inner : List Char)
    (hfl : ∀ c ∈ field, c ≠ '(' ∧ isLineTerm c = false)
    (hil : ∀ c ∈ inner, c ≠ '(' ∧ isLineTerm c = false) :
    matchParams (clauseToken field inner) = some (field, inner) := by
  have hany : (clauseToken field inner).any isLineTerm = false := by
    rw [List.any_eq_false]
    intro c hc
    rcases (by simpa [clauseToken, List.mem_append, List.mem_cons] using hc :
        c ∈ field ∨ c = '(' ∨ c ∈ inner ∨ c = ')') with h | h | h | h
    · simp [(hfl c h).2]
    · rw [h]; decide
    · simp [(hil c h).2]
    · rw [h]; decide
  have hrev : (clauseToken field inner).reverse
      = ')' :: (inner.reverse ++ '(' :: field.reverse) := by
    simp [clauseToken]
  have htk : (inner.reverse ++ '(' :: field.reverse).takeWhile (fun c => c != '(')
      = inner.reverse := by
    rw [takeWhile_append_all _ _ _
      (fun c hc => by simp [(hil c (List.mem_reverse.mp hc)).1])]
    simp
  have hdk : (inner.reverse ++ '(' :: field.reverse).dropWhile (fun c => c != '(')
      = '(' :: field.reverse := by
    rw [dropWhile_append_all _ _ _
      (fun c hc => by simp [(hil c (List.mem_reverse.mp hc)).1])]
    simp
  simp only [matchParams, hany, hrev, htk, hdk]
  simp

theorem compileClause_clauseToken (field inner : List Char)
    (hfl : ∀ c ∈ field, c ≠ '(' ∧ isLineTerm c = false)
    (hil : ∀ c ∈ inner, c ≠ '(' ∧ isLineTerm c = false) :
    compileClause (clauseToken field inner)
      = (exMapM (compileArg field.asString) (charSplitOn ',' inner)).map
          (List.filterMap id) := by
  unfold compileClause
  rw [matchParams_clauseToken field inner hfl hil]
  simp only [List.map_map]
  rw [exMapM_map]
  rfl

theorem filterL_single (field inner : List Char)
    (hf : FieldOk field) (hine : inner ≠ [])
    (hic : ∀ c ∈ inner, c ≠ ')') :
    dataTableFilterL (clauseToken field inner)
      = (compileClause (clauseToken field inner)).map
          (fun preds => if preds.isEmpty then none else some [preds]) := by
  have htokne : (clauseToken field inner).isEmpty = false := by
    obtain ⟨hfne, _, _, _⟩ := hf
    cases field with
    | nil => exact absurd rfl hfne
    | cons c f => rfl
  have hbg : buildGroups [clauseToken field inner] = [[clauseToken field inner]] := by
    simp [buildGroups, pairUp, goGroups]
  have hcg : compileGroup [clauseToken field inner]
      = (compileClause (clauseToken field inner)).map (fun p => p ++ []) := by
    cases hcc : compileClause (clauseToken field inner) with
    | error e => simp [compileGroup, exMapM, hcc, exBind_error, exMap_error]
    | ok preds => simp [compileGroup, exMapM, hcc, exBind_ok, exMap_ok]
  unfold dataTableFilterL
  rw [tokenize_clauseToken field inner hf hine hic]
  simp only [htokne, List.isEmpty_cons, Bool.false_eq_true, if_false, hbg]
  cases hcc : compileClause (clauseToken field inner) with
  | error e =>
    rw [hcc, exMap_error] at hcg
    simp [exMapM, hcg, hcc, exBind_error, exMap_error]
  | ok preds =>
    rw [hcc, exMap_ok] at hcg
    simp only [List.append_nil] at hcg
    simp only [exMapM, hcg, hcc, exBind_ok, exMap_ok]
    by_cases hp : preds.isEmpty
    · have hpe : preds = [] := by
        cases preds with
        | nil => rfl
        | cons a t => cases hp
      subst hpe
      simp
      rfl
    · simp [List.filter, hp]
      have hne : preds ≠ [] := by
        intro hh
        subst hh
        exact hp rfl
      rw [if_neg hne]
      rfl

/-! ## The store value order is a total preorder with equality as its
equivalence: lemmas used by the sorting and grouping proofs. -/

theorem intCmp_eq_iff (a b : ℤ) : intCmp a b = .eq ↔ a = b := by
  unfold intCmp
  split_ifs <;> simp_all <;> omega

theorem intCmp_lt_iff (a b : ℤ) : intCmp a b = .lt ↔ a < b := by
  unfold intCmp
  split_ifs <;> simp_all <;> omega

theorem intCmp_swap (a b : ℤ) : (intCmp a b).swap = intCmp b a := by
  unfold intCmp
  rcases lt_trichotomy a b with h | h | h
  · rw [if_pos h, if_neg (show ¬b < a by omega), if_neg (show ¬b = a by omega)]
    rfl
  · rw [if_neg (show ¬a < b by omega), if_pos h, if_neg (show ¬b < a by omega),
      if_pos h.symm]
    rfl
  · rw [if_neg (show ¬a < b by omega), if_neg (show ¬a = b by omega), if_pos h]
    rfl

theorem charCmp_eq_iff (a b : Char) : charCmp a b = .eq ↔ a = b := by
  unfold charCmp
  rw [intCmp_eq_iff]
  constructor
  · intro h
    exact Char.ext (UInt32.ext (by exact_mod_cast h))
  · intro h
    rw [h]

theorem charCmp_swap (a b : Char) : (charCmp a b).swap = charCmp b a :=
  intCmp_swap _ _

theorem charCmp_lt_trans {a b c : Char} (h1 : charCmp a b = .lt)
    (h2 : charCmp b c = .lt) : charCmp a c = .lt := by
  unfold charCmp at *
  rw [intCmp_lt_iff] at *
  omega

theorem charsCmp_eq_iff : ∀ l m : List Char, charsCmp l m = .eq ↔ l = m
  | [], [] => by simp [charsCmp]
  | [], _ :: _ => by simp [charsCmp]
  | _ :: _, [] => by simp [charsCmp]
  | a :: as, b :: bs => by
    unfold charsCmp
    cases hab : charCmp a b with
    | eq =>
      rw [charCmp_eq_iff] at hab
      subst hab
      simp [charsCmp_eq_iff as bs]
    | lt =>
      have : a ≠ b := by
        intro h
        subst h
        rw [(charCmp_eq_iff a a).mpr rfl] at hab
        cases hab
      simp [this]
    | gt =>
      have : a ≠ b := by
        intro h
        subst h
        rw [(charCmp_eq_iff a a).mpr rfl] at hab
        cases hab
      simp [this]

theorem charsCmp_swap : ∀ l m : List Char, (charsCmp l m).swap = charsCmp m l
  | [], [] => rfl
  | [], _ :: _ => rfl
  | _ :: _, [] => rfl
  | a :: as, b :: bs => by
    unfold charsCmp
    cases hab : charCmp a b with
    | eq =>
      have hba : charCmp b a = .eq := by rw [← charCmp_swap, hab]; rfl
      rw [hba]
      exact charsCmp_swap as bs
    | lt =>
      have hba : charCmp b a = .gt := by rw [← charCmp_swap, hab]; rfl
      rw [hba]
      rfl
    | gt =>
      have hba : charCmp b a = .lt := by rw [← charCmp_swap, hab]; rfl
      rw [hba]
      rfl

theorem charsCmp_lt_trans : ∀ l m n : List Char,
    charsCmp l m = .lt → charsCmp m n = .lt → charsCmp l n = .lt
  | l, m, n, h1, h2 => by
    match l, m, n with
    | [], [], _ => exact h2
    | [], _ :: _, [] => cases h2
    | [], _ :: _, _ :: _ => rfl
    | _ :: _, [], _ => cases h1
    | _ :: _, _ :: _, [] => cases h2
    | a :: as, b :: bs, c :: cs =>
      unfold charsCmp at h1 h2 ⊢
      cases hab : charCmp a b with
      | eq =>
        rw [hab] at h1
        have hab2 : a = b := (charCmp_eq_iff a b).mp hab
        subst hab2
        have h1a : charsCmp as bs = .lt := h1
        cases hac : charCmp a c with
        | eq =>
          rw [hac] at h2
          have h2a : charsCmp bs cs = .lt := h2
          exact charsCmp_lt_trans as bs cs h1a h2a
        | lt => rfl
        | gt => rw [hac] at h2; simp at h2
      | lt =>
        cases hbc : charCmp b c with
        | eq =>
          have hbc2 : b = c := (charCmp_eq_iff b c).mp hbc
          subst hbc2
          rw [hab]
        | lt => rw [charCmp_lt_trans hab hbc]
        | gt => rw [hbc] at h2; simp at h2
      | gt => rw [hab] at h1; simp at h1

theorem str_data_iff (a b : String) : a.data = b.data ↔ a = b :=
  ⟨String.ext, fun h => by rw [h]⟩

mutual

theorem bcmp_eq_iff : ∀ a b : BVal, bcmp a b = .eq ↔ a = b
  | .null, b => by cases b <;> simp [bcmp]
  | .int a, b => by cases b <;> simp [bcmp, intCmp_eq_iff]
  | .str a, b => by cases b <;> simp [bcmp, charsCmp_eq_iff, str_data_iff]
  | .arr a, .null => by simp [bcmp]
  | .arr a, .int b => by simp [bcmp]
  | .arr a, .str b => by simp [bcmp]
  | .arr a, .arr b => by
    have h := bcmpL_eq_iff a b
    simp only [bcmp, h]
    simp

theorem bcmpL_eq_iff : ∀ a b : BList, bcmpL a b = .eq ↔ a = b
  | .nil, .nil => by simp [bcmpL]
  | .nil, .cons _ _ => by simp [bcmpL]
  | .cons _ _, .nil => by simp [bcmpL]
  | .cons a as, .cons b bs => by
    unfold bcmpL
    cases hab : bcmp a b with
    | eq =>
      have h2 : a = b := (bcmp_eq_iff a b).mp hab
      subst h2
      simp [bcmpL_eq_iff as bs]
    | lt =>
      have hne : a ≠ b := fun h => by
        subst h
        rw [(bcmp_eq_iff a a).mpr rfl] at hab
        cases hab
      simp [hne]
    | gt =>
      have hne : a ≠ b := fun h => by
        subst h
        rw [(bcmp_eq_iff a a).mpr rfl] at hab
        cases hab
      simp [hne]

end

mutual

theorem bcmp_swap : ∀ a b : BVal, (bcmp a b).swap = bcmp b a
  | .null, b => by cases b <;> rfl
  | .int a, b => by cases b <;> first | rfl | exact intCmp_swap _ _
  | .str a, b => by cases b <;> first | rfl | exact charsCmp_swap _ _
  | .arr a, .null => rfl
  | .arr a, .int _ => rfl
  | .arr a, .str _ => rfl
  | .arr a, .arr b => bcmpL_swap a b

theorem bcmpL_swap : ∀ a b : BList, (bcmpL a b).swap = bcmpL b a
  | .nil, .nil => rfl
  | .nil, .cons _ _ => rfl
  | .cons _ _, .nil => rfl
  | .cons a as, .cons b bs => by
    unfold bcmpL
    cases hab : bcmp a b with
    | eq =>
      have hba : bcmp b a = .eq := by rw [← bcmp_swap a b, hab]; rfl
      rw [hba]
      exact bcmpL_swap as bs
    | lt =>
      have hba : bcmp b a = .gt := by rw [← bcmp_swap a b, hab]; rfl
      rw [hba]
      rfl
    | gt =>
      have hba : bcmp b a = .lt := by rw [← bcmp_swap a b, hab]; rfl
      rw [hba]
      rfl

end

mutual

theorem bcmp_lt_trans : ∀ a b c : BVal,
    bcmp a b = .lt → bcmp b c = .lt → bcmp a c = .lt
  | .null, b, c => by
    intro h1 h2
    cases b <;> cases c <;> simp_all [bcmp]
  | .int a, b, c => by
    intro h1 h2
    cases b <;> cases c <;> simp_all [bcmp, intCmp_lt_iff] <;> omega
  | .str a, b, c => by
    intro h1 h2
    cases b <;> cases c <;> simp_all [bcmp]
    exact charsCmp_lt_trans _ _ _ h1 h2
  | .arr a, .null, c => by intro h1 _; simp [bcmp] at h1
  | .arr a, .int _, c => by intro h1 _; simp [bcmp] at h1
  | .arr a, .str _, c => by intro h1 _; simp [bcmp] at h1
  | .arr a, .arr b, .null => by intro _ h2; simp [bcmp] at h2
  | .arr a, .arr b, .int _ => by intro _ h2; simp [bcmp] at h2
  | .arr a, .arr b, .str _ => by intro _ h2; simp [bcmp] at h2
  | .arr a, .arr b, .arr c => fun h1 h2 => bcmpL_lt_trans a b c h1 h2

theorem bcmpL_lt_trans : ∀ a b c : BList,
    bcmpL a b = .lt → bcmpL b c = .lt → bcmpL a c = .lt
  | .nil, .nil, _ => by intro h1 _; simp [bcmpL] at h1
  | .nil, .cons _ _, .nil => by intro _ h2; simp [bcmpL] at h2
  | .nil, .cons _ _, .cons _ _ => by intro _ _; rfl
  | .cons _ _, .nil, _ => by intro h1 _; simp [bcmpL] at h1
  | .cons _ _, .cons _ _, .nil => by intro _ h2; simp [bcmpL] at h2
  | .cons a as, .cons b bs, .cons c cs => by
    intro h1 h2
    unfold bcmpL at h1 h2 ⊢
    cases hab : bcmp a b with
    | eq =>
      rw [hab] at h1
      have hab2 : a = b := (bcmp_eq_iff a b).mp hab
      subst hab2
      have h1a : bcmpL as bs = .lt := h1
      cases hac : bcmp a c with
      | eq =>
        rw [hac] at h2
        have h2a : bcmpL bs cs = .lt := h2
        exact bcmpL_lt_trans as bs cs h1a h2a
      | lt => rfl
      | gt => rw [hac] at h2; simp at h2
    | lt =>
      cases hbc : bcmp b c with
      | eq =>
        have hbc2 : b = c := (bcmp_eq_iff b c).mp hbc
        subst hbc2
        rw [hab]
      | lt => rw [bcmp_lt_trans a b c hab hbc]
      | gt => rw [hbc] at h2; simp at h2
    | gt => rw [hab] at h1; simp at h1

end

theorem bv_iff (a b : BVal) : bv a b = true ↔ a = b := by
  unfold bv
  constructor
  · intro h
    apply (bcmp_eq_iff a b).mp
    cases hab : bcmp a b with
    | eq => rfl
    | lt => rw [hab] at h; exact absurd h (by decide)
    | gt => rw [hab] at h; exact absurd h (by decide)
  · intro h
    subst h
    rw [(bcmp_eq_iff a a).mpr rfl]
    rfl

theorem ble_total (a b : BVal) (h : ble a b = false) : ble b a = true := by
  unfold ble at h ⊢
  have hs := bcmp_swap a b
  cases hab : bcmp a b with
  | eq => rw [hab] at h; cases h
  | lt => rw [hab] at h; cases h
  | gt =>
    rw [hab] at hs
    rw [← hs]
    rfl

theorem ble_trans {a b c : BVal} (h1 : ble a b = true) (h2 : ble b c = true) :
    ble a c = true := by
  unfold ble at h1 h2 ⊢
  cases hab : bcmp a b with
  | eq =>
    have : a = b := (bcmp_eq_iff a b).mp hab
    subst this
    exact h2
  | lt =>
    cases hbc : bcmp b c with
    | eq =>
      have : b = c := (bcmp_eq_iff b c).mp hbc
      subst this
      rw [hab]
      rfl
    | lt => rw [bcmp_lt_trans a b c hab hbc]; rfl
    | gt => rw [hbc] at h2; cases h2
  | gt => rw [hab] at h1; cases h1

theorem blt_of_ble_ne {a b : BVal} (h1 : ble a b = true) (h2 : bv a b = false) :
    bcmp a b = .lt := by
  unfold ble at h1
  unfold bv at h2
  cases hab : bcmp a b with
  | eq => rw [hab] at h2; cases h2
  | lt => rfl
  | gt => rw [hab] at h1; cases h1

theorem blt_ble_trans {a b c : BVal} (h1 : bcmp a b = .lt) (h2 : ble b c = true) :
    bcmp a c = .lt := by
  unfold ble at h2
  cases hbc : bcmp b c with
  | eq =>
    have : b = c := (bcmp_eq_iff b c).mp hbc
    subst this
    exact h1
  | lt => exact bcmp_lt_trans a b c h1 hbc
  | gt => rw [hbc] at h2; cases h2

theorem bv_false_of_lt {a b : BVal} (h : bcmp a b = .lt) : bv a b = false := by
  unfold bv
  rw [h]
  rfl


/-! ## Insertion sort lemmas -/

theorem mem_insertB {v x : BVal} : ∀ l, x ∈ insertB v l ↔ x = v ∨ x ∈ l
  | [] => by simp [insertB]
  | w :: ws => by
    unfold insertB
    by_cases h : ble v w = true
    · rw [if_pos h]
      simp only [List.mem_cons]
    · rw [if_neg h]
      simp only [List.mem_cons, mem_insertB ws]
      tauto

theorem pairwise_insertB {v : BVal} :
    ∀ l, List.Pairwise (fun a b => ble a b = true) l →
      List.Pairwise (fun a b => ble a b = true) (insertB v l)
  | [], _ => by simp [insertB]
  | w :: ws, hp => by
    unfold insertB
    rcases List.pairwise_cons.mp hp with ⟨hw, hws⟩
    by_cases h : ble v w = true
    · rw [if_pos h]
      refine List.pairwise_cons.mpr ⟨?_, hp⟩
      intro x hx
      rcases List.mem_cons.mp hx with rfl | hx2
      · exact h
      · exact ble_trans h (hw x hx2)
    · rw [if_neg h]
      refine List.pairwise_cons.mpr ⟨?_, pairwise_insertB ws hws⟩
      intro x hx
      rcases (mem_insertB ws).mp hx with hxv | hx2
      · rw [hxv]
        exact ble_total v w (by simpa using h)
      · exact hw x hx2

theorem countP_insertB (p : BVal → Bool) (v : BVal) :
    ∀ l, (insertB v l).countP p = (v :: l).countP p
  | [] => rfl
  | w :: ws => by
    unfold insertB
    by_cases h : ble v w = true
    · rw [if_pos h]
    · rw [if_neg h]
      simp only [List.countP_cons, countP_insertB p v ws]
      omega

theorem length_insertB (v : BVal) : ∀ l, (insertB v l).length = l.length + 1
  | [] => rfl
  | w :: ws => by
    unfold insertB
    by_cases h : ble v w = true
    · rw [if_pos h]
      simp
    · rw [if_neg h]
      simp [length_insertB v ws]

theorem sortB_pairwise : ∀ l, List.Pairwise (fun a b => ble a b = true) (sortB l)
  | [] => List.Pairwise.nil
  | v :: vs => pairwise_insertB (sortB vs) (sortB_pairwise vs)

theorem sortB_countP (p : BVal → Bool) : ∀ l, (sortB l).countP p = l.countP p
  | [] => rfl
  | v :: vs => by
    unfold sortB
    rw [countP_insertB, List.countP_cons, List.countP_cons, sortB_countP p vs]

theorem sortB_length : ∀ l, (sortB l).length = l.length
  | [] => rfl
  | v :: vs => by
    unfold sortB
    rw [length_insertB, sortB_length vs]
    simp

theorem sortB_mem (x : BVal) : ∀ l, x ∈ sortB l ↔ x ∈ l
  | [] => Iff.rfl
  | v :: vs => by
    unfold sortB
    rw [mem_insertB (sortB vs), sortB_mem x vs]
    simp

/-! ## Run-length grouping lemmas -/

theorem rleAux_snd_sum : ∀ (ws : List BVal) (v : BVal) (n : Nat),
    ((rleAux v n ws).map Prod.snd).sum = n + ws.length
  | [], v, n => by simp [rleAux]
  | w :: ws, v, n => by
    unfold rleAux
    by_cases h : bv v w = true
    · rw [if_pos h, rleAux_snd_sum ws v (n + 1)]
      simp
      omega
    · rw [if_neg h]
      simp only [List.map_cons, List.sum_cons, rleAux_snd_sum ws w 1]
      simp
      omega

theorem rleAux_fst_mem (x : BVal) : ∀ (ws : List BVal) (v : BVal) (n : Nat),
    x ∈ (rleAux v n ws).map Prod.fst ↔ x = v ∨ x ∈ ws
  | [], v, n => by simp [rleAux]
  | w :: ws, v, n => by
    unfold rleAux
    by_cases h : bv v w = true
    · have hvw : v = w := (bv_iff v w).mp h
      rw [if_pos h, rleAux_fst_mem x ws v (n + 1)]
      simp only [List.mem_cons]
      rw [hvw]
      tauto
    · rw [if_neg h]
      simp only [List.map_cons, List.mem_cons, rleAux_fst_mem x ws w 1]

theorem rleAux_pairwise : ∀ (ws : List BVal) (v : BVal) (n : Nat),
    List.Pairwise (fun a b => ble a b = true) (v :: ws) →
    List.Pairwise (fun (p q : BVal × Nat) => bcmp p.1 q.1 = .lt) (rleAux v n ws)
  | [], v, n, _ => by simp [rleAux]
  | w :: ws, v, n, hp => by
    unfold rleAux
    rcases List.pairwise_cons.mp hp with ⟨hv, hws⟩
    by_cases h : bv v w = true
    · have hvw : v = w := (bv_iff v w).mp h
      rw [if_pos h]
      apply rleAux_pairwise ws v (n + 1)
      rw [hvw]
      exact hws
    · rw [if_neg h]
      have hlt : bcmp v w = .lt :=
        blt_of_ble_ne (hv w (List.mem_cons_self w ws)) (by simpa using h)
      refine List.pairwise_cons.mpr ⟨?_, rleAux_pairwise ws w 1 hws⟩
      intro q hq
      have hq1 : q.1 = w ∨ q.1 ∈ ws :=
        (rleAux_fst_mem q.1 ws w 1).mp (List.mem_map_of_mem Prod.fst hq)
      rcases hq1 with hqe | hqm
      · rw [hqe]; exact hlt
      · exact blt_ble_trans hlt ((List.pairwise_cons.mp hws).1 q.1 hqm)

theorem rleAux_counts : ∀ (ws : List BVal) (v : BVal) (n : Nat),
    List.Pairwise (fun a b => ble a b = true) (v :: ws) →
    ∀ p ∈ rleAux v n ws, p.2 = cond (bv p.1 v) n 0 + ws.countP (bv p.1)
  | [], v, n, _ => by
    intro p hp
    rcases List.mem_singleton.mp hp with rfl
    simp [(bv_iff v v).mpr rfl]
  | w :: ws, v, n, hp => by
    rcases List.pairwise_cons.mp hp with ⟨hv, hws⟩
    intro p hp2
    unfold rleAux at hp2
    by_cases h : bv v w = true
    · have hvw : v = w := (bv_iff v w).mp h
      rw [if_pos h] at hp2
      have hsort : List.Pairwise (fun a b => ble a b = true) (v :: ws) := by
        rw [hvw]; exact hws
      have ih := rleAux_counts ws v (n + 1) hsort p hp2
      have hww : bv p.1 w = bv p.1 v := by rw [hvw]
      rw [ih, List.countP_cons, hww]
      cases hbv : bv p.1 v
      · simp
      · simp
        omega
    · rw [if_neg h] at hp2
      have hlt : bcmp v w = .lt :=
        blt_of_ble_ne (hv w (List.mem_cons_self w ws)) (by simpa using h)
      rcases List.mem_cons.mp hp2 with rfl | hp3
      · have hzero : (w :: ws).countP (bv v) = 0 := by
          apply List.countP_eq_zero.mpr
          intro x hx
          rcases List.mem_cons.mp hx with rfl | hx2
          · simpa using h
          · have hlx : bcmp v x = .lt :=
              blt_ble_trans hlt ((List.pairwise_cons.mp hws).1 x hx2)
            simp [bv_false_of_lt hlx]
        simp [hzero, (bv_iff v v).mpr rfl]
      · have ih := rleAux_counts ws w 1 hws p hp3
        have hp1 : p.1 = w ∨ p.1 ∈ ws :=
          (rleAux_fst_mem p.1 ws w 1).mp (List.mem_map_of_mem Prod.fst hp3)
        have hlt2 : bcmp v p.1 = .lt := by
          rcases hp1 with hqe | hqm
          · rw [hqe]; exact hlt
          · exact blt_ble_trans hlt ((List.pairwise_cons.mp hws).1 p.1 hqm)
        have hnv : bv p.1 v = false := by
          cases hbv : bv p.1 v
          · rfl
          · have : p.1 = v := (bv_iff p.1 v).mp hbv
            rw [this] at hlt2
            rw [(bcmp_eq_iff v v).mpr rfl] at hlt2
            cases hlt2
        rw [ih, List.countP_cons, hnv]
        cases hbw : bv p.1 w
        · simp
        · simp
          omega

theorem rle_pairwise (l : List BVal)
    (h : List.Pairwise (fun a b => ble a b = true) l) :
    List.Pairwise (fun (p q : BVal × Nat) => bcmp p.1 q.1 = .lt) (rle l) := by
  cases l with
  | nil => exact List.Pairwise.nil
  | cons v vs => exact rleAux_pairwise vs v 1 h

theorem rle_snd_sum (l : List BVal) : ((rle l).map Prod.snd).sum = l.length := by
  cases l with
  | nil => rfl
  | cons v vs =>
    unfold rle
    rw [rleAux_snd_sum vs v 1]
    simp
    omega

theorem rle_fst_mem (x : BVal) (l : List BVal) :
    x ∈ (rle l).map Prod.fst ↔ x ∈ l := by
  cases l with
  | nil => simp [rle]
  | cons v vs =>
    unfold rle
    rw [rleAux_fst_mem x vs v 1]
    simp

theorem rle_counts (l : List BVal)
    (h : List.Pairwise (fun a b => ble a b = true) l) :
    (rle l).map Prod.snd = (rle l).map (fun p => l.countP (bv p.1)) := by
  cases l with
  | nil => rfl
  | cons v vs =>
    apply List.map_congr_left
    intro p hp
    have hc := rleAux_counts vs v 1 h p hp
    rw [hc, List.countP_cons]
    cases hbv : bv p.1 v
    · simp
    · simp
      omega


/-! ## Dispatch lemmas for single well-formed clauses -/

theorem compileArg_allowed (field : String) (op : List Char) (args : List (List Char))
    (hop : OpOk op) (hmem : op.asString ∈ allowedOperators)
    (hargs : args ≠ [])
    (hargsok : ∀ a ∈ args, ∀ c ∈ a, c ≠ ':') :
    compileArg field (op ++ ':' :: joinSep ':' args)
      = .ok (some (.fieldOp field op.asString
          (if args.length > 1
            then .many (args.map fun a => (trimChars a).asString)
            else .one ((args.map fun a => (trimChars a).asString).headD "")))) := by
  have hsplit : charSplitOn ':' (op ++ ':' :: joinSep ':' args) = op :: args := by
    rw [charSplitOn_append ':' op _ (fun c hc => (hop c hc).2.2.2.1),
      charSplitOn_joinSep ':' args hargs hargsok]
  simp only [compileArg, hsplit, List.map_cons]
  rw [trimChars_id op (fun c hc => (hop c hc).2.2.2.2.2)]
  have hgt : ¬((op.asString :: args.map fun a => (trimChars a).asString).length ≤ 1) := by
    have := List.length_pos.mpr hargs
    simp only [List.length_cons, List.length_map]
    omega
  rw [if_neg hgt]
  have h0 : ∀ x ∈ allowedOperators, ¬x = "" ∧ ¬x = "match" ∧ ¬x = "contains" ∧
      x ∉ protoThrowNames ∧ x ∉ protoReturnNames := by decide
  obtain ⟨h1, h2, h3, h4, h5⟩ := h0 op.asString hmem
  simp only [compileParam]
  rw [if_neg h1, if_neg h2, if_neg h3, if_neg h4, if_neg h5, if_pos hmem]
  simp [List.length_map]

theorem compileArg_unknown (field : String) (op v : List Char)
    (hop : OpOk op)
    (hv : ∀ c ∈ v, c ≠ ':')
    (h1 : op.asString ∉ allowedOperators) (h2 : op.asString ≠ "match")
    (h3 : op.asString ≠ "contains") (h4 : op.asString ∉ protoThrowNames)
    (h5 : op.asString ∉ protoReturnNames) :
    compileArg field (op ++ ':' :: v) = .ok none := by
  have hsplit : charSplitOn ':' (op ++ ':' :: v) = [op, v] := by
    rw [charSplitOn_append ':' op _ (fun c hc => (hop c hc).2.2.2.1),
      charSplitOn_no_sep ':' v hv]
  simp only [compileArg, hsplit, List.map_cons, List.map_nil]
  rw [trimChars_id op (fun c hc => (hop c hc).2.2.2.2.2)]
  rw [if_neg (by simp)]
  simp only [compileParam]
  by_cases h0 : op.asString = ""
  · rw [if_pos h0]
  · rw [if_neg h0, if_neg h2, if_neg h3, if_neg h4, if_neg h5, if_neg h1]

theorem filterL_one_arg (field inner : List Char)
    (hf : FieldOk field)
    (hine : inner ≠ [])
    (hiprop : ∀ c ∈ inner, c ≠ '(' ∧ c ≠ ')' ∧ isLineTerm c = false ∧ c ≠ ',') :
    dataTableFilterL (clauseToken field inner)
      = (compileArg field.asString inner).map
          (fun r => match r with
            | none => none
            | some p => some [[p]]) := by
  obtain ⟨hfne, hh1, hh2, hfc⟩ := hf
  rw [filterL_single field inner ⟨hfne, hh1, hh2, hfc⟩ hine (fun c hc => (hiprop c hc).2.1),
    compileClause_clauseToken field inner
      (fun c hc => ⟨(hfc c hc).1, (hfc c hc).2.2⟩)
      (fun c hc => ⟨(hiprop c hc).1, (hiprop c hc).2.2.1⟩),
    charSplitOn_no_sep ',' inner (fun c hc => (hiprop c hc).2.2.2)]
  cases h : compileArg field.asString inner with
  | error e => simp [exMapM, h, exBind_error, exMap_error]
  | ok r =>
    cases r with
    | none => simp [exMapM, h, exBind_ok, exMap_ok, List.filterMap]
    | some p => simp [exMapM, h, exBind_ok, exMap_ok, List.filterMap]

/-- C1 (corrected): the pass-through law.  Whenever every clause-position
token of the filter string compiles to no predicate (in particular for the
empty string, for strings with no recognizable clause token, and for
strings whose every clause is malformed or names an operation that is
neither known nor inherited from Object.prototype), dataTableFilter leaves
the query unchanged. -/
theorem C1_pass_through (terms : String)
    (h : ∀ t ∈ tokenize terms.data, compileClause t = .ok []) :
    dataTableFilter terms = .ok none :=
  filterL_passthrough terms.data (fun t ht => h t (evenIdx_subset _ t ht))

theorem C1_pass_through_witness : dataTableFilter "a(foo:1),b,;x(:1)" = .ok none :=
  C1_pass_through "a(foo:1),b,;x(:1)" (by decide)

/-- C1 counterexample: the filter "a(toString:1)" has a single clause with
an unknown operation name, yet it does not compile to pass-through: the
property lookup finds the inherited Object.prototype member toString,
whose call produces a truthy junk value that becomes a constraint. -/
theorem C1_counterexample :
    dataTableFilter "a(toString:1)" ≠ .ok none ∧
    dataTableFilter "a(toString:1)" = .ok (some [[.protoResult "toString" "a"]]) :=
  ⟨by decide, rfl⟩

/-- C2 (confirmed): the filter "a(eq:1),b(eq:2);c(eq:3)" compiles to the
two-level tree (a=1 AND b=2) OR (c=3), and in general the grouping loop
flushes the current AND group on a semicolon delimiter while a comma
delimiter or the absence of a delimiter appends to the current group. -/
theorem C2_and_or_grouping :
    dataTableFilter "a(eq:1),b(eq:2);c(eq:3)"
      = .ok (some [[.fieldOp "a" "eq" (.one "1"), .fieldOp "b" "eq" (.one "2")],
                   [.fieldOp "c" "eq" (.one "3")]]) ∧
    (∀ (rest : List (Option (List Char) × List Char)) (orB : List (List (List Char)))
        (andB : List (List Char)) (f : List Char),
      goGroups ((some [';'], f) :: rest) orB andB = goGroups rest (orB ++ [andB]) [f]) ∧
    (∀ (rest : List (Option (List Char) × List Char)) (orB : List (List (List Char)))
        (andB : List (List Char)) (f : List Char),
      goGroups ((some [','], f) :: rest) orB andB = goGroups rest orB (andB ++ [f])) ∧
    (∀ (rest : List (Option (List Char) × List Char)) (orB : List (List (List Char)))
        (andB : List (List Char)) (f : List Char),
      goGroups ((none, f) :: rest) orB andB = goGroups rest orB (andB ++ [f])) := by
  refine ⟨rfl, ?_, ?_, ?_⟩ <;> intro rest orB andB f <;> simp [goGroups]

/-- C3 (corrected): operation dispatch.  For every single-clause filter
field(op:v1:...:vn) with a well-formed field and well-formed arguments, an
operation name of the fixed comparison set compiles to the field-scoped
predicate carrying the single remaining trimmed argument, or the full
ordered trimmed argument list when more than one remains; an operation
name outside the fixed set that is neither match nor contains nor an
Object.prototype property name compiles to nothing and the one-clause
filter passes through.  The Object.prototype names escape the drop path:
toString, constructor and isPrototypeOf compile junk constraints (the
first step of isPrototypeOf answers false for a primitive argument before
the this coercion can throw) and the remaining members throw. -/
theorem C3_operation_dispatch :
    (∀ (field op : List Char) (args : List (List Char)),
      FieldOk field → OpOk op → op.asString ∈ allowedOperators →
      args ≠ [] → (∀ a ∈ args, ArgOk a) → (∀ a ∈ args, ∀ c ∈ a, c ≠ ':') →
      dataTableFilterL (clauseToken field (op ++ ':' :: joinSep ':' args))
        = .ok (some [[Pred.fieldOp field.asString op.asString
            (if args.length > 1
              then .many (args.map fun a => (trimChars a).asString)
              else .one ((args.map fun a => (trimChars a).asString).headD ""))]])) ∧
    (∀ (field op v : List Char),
      FieldOk field → OpOk op → op.asString ∈ allowedOperators →
      ArgOk v → (∀ c ∈ v, c ≠ ':') →
      dataTableFilterL (clauseToken field (op ++ ':' :: v))
        = .ok (some [[Pred.fieldOp field.asString op.asString
            (.one (trimChars v).asString)]])) ∧
    (∀ (field op v1 v2 : List Char),
      FieldOk field → OpOk op → op.asString ∈ allowedOperators →
      ArgOk v1 → (∀ c ∈ v1, c ≠ ':') → ArgOk v2 → (∀ c ∈ v2, c ≠ ':') →
      dataTableFilterL (clauseToken field (op ++ ':' :: (v1 ++ ':' :: v2)))
        = .ok (some [[Pred.fieldOp field.asString op.asString
            (.many [(trimChars v1).asString, (trimChars v2).asString])]])) ∧
    (∀ (field op v : List Char),
      FieldOk field → OpOk op →
      op.asString ∉ allowedOperators → op.asString ≠ "match" →
      op.asString ≠ "contains" → op.asString ∉ protoThrowNames →
      op.asString ∉ protoReturnNames →
      ArgOk v → (∀ c ∈ v, c ≠ ':') →
      dataTableFilterL (clauseToken field (op ++ ':' :: v)) = .ok none) ∧
    ((allowedOperators.map fun op => dataTableFilter ("a(" ++ op ++ ":1)"))
      = allowedOperators.map fun op => .ok (some [[.fieldOp "a" op (.one "1")]])) ∧
    ((allowedOperators.map fun op => dataTableFilter ("a(" ++ op ++ ":1:2)"))
      = allowedOperators.map fun op => .ok (some [[.fieldOp "a" op (.many ["1", "2"])]])) ∧
    (∀ op : String, op ∉ allowedOperators → op ≠ "match" → op ≠ "contains" →
      op ∉ protoThrowNames → op ∉ protoReturnNames → op ≠ "" →
      compileParam "a" [op, "1"] = .ok none) ∧
    dataTableFilter "a(unknownop:1)" = .ok none := by
  have hne1 : ∀ (op tail : List Char), op ++ ':' :: tail ≠ [] := by
    intro op tail h
    rcases List.append_eq_nil.mp h with ⟨_, h2⟩
    simp at h2
  have hinner1 : ∀ (op : List Char) (args : List (List Char)), OpOk op →
      (∀ a ∈ args, ArgOk a) →
      ∀ c ∈ op ++ ':' :: joinSep ':' args,
        c ≠ '(' ∧ c ≠ ')' ∧ isLineTerm c = false ∧ c ≠ ',' := by
    intro op args hop hargsA c hc
    rcases List.mem_append.mp hc with h | h
    · exact ⟨(hop c h).1, (hop c h).2.1, (hop c h).2.2.2.2.1, (hop c h).2.2.1⟩
    · rcases List.mem_cons.mp h with rfl | h2
      · exact ⟨by decide, by decide, by decide, by decide⟩
      · rcases mem_joinSep ':' args c h2 with rfl | ⟨a, ha, hca⟩
        · exact ⟨by decide, by decide, by decide, by decide⟩
        · exact ⟨(hargsA a ha c hca).1, (hargsA a ha c hca).2.1,
            (hargsA a ha c hca).2.2.2, (hargsA a ha c hca).2.2.1⟩
  have hgen : ∀ (field op : List Char) (args : List (List Char)),
      FieldOk field → OpOk op → op.asString ∈ allowedOperators →
      args ≠ [] → (∀ a ∈ args, ArgOk a) → (∀ a ∈ args, ∀ c ∈ a, c ≠ ':') →
      dataTableFilterL (clauseToken field (op ++ ':' :: joinSep ':' args))
        = .ok (some [[Pred.fieldOp field.asString op.asString
            (if args.length > 1
              then .many (args.map fun a => (trimChars a).asString)
              else .one ((args.map fun a => (trimChars a).asString).headD ""))]]) := by
    intro field op args hf hop hmem hargsne hargsA hargsC
    rw [filterL_one_arg field _ hf (hne1 op _) (hinner1 op args hop hargsA),
      compileArg_allowed field.asString op args hop hmem hargsne hargsC]
    rfl
  have hdrop : ∀ (field op v : List Char),
      FieldOk field → OpOk op →
      op.asString ∉ allowedOperators → op.asString ≠ "match" →
      op.asString ≠ "contains" → op.asString ∉ protoThrowNames →
      op.asString ∉ protoReturnNames →
      ArgOk v → (∀ c ∈ v, c ≠ ':') →
      dataTableFilterL (clauseToken field (op ++ ':' :: v)) = .ok none := by
    intro field op v hf hop h1 h2 h3 h4 h5 hv hvC
    have hargsA : ∀ a ∈ [v], ArgOk a := by
      intro a ha
      rcases List.mem_singleton.mp ha with rfl
      exact hv
    have hip : ∀ c ∈ op ++ ':' :: v,
        c ≠ '(' ∧ c ≠ ')' ∧ isLineTerm c = false ∧ c ≠ ',' := by
      have h := hinner1 op [v] hop hargsA
      simpa [joinSep] using h
    rw [filterL_one_arg field _ hf (hne1 op _) hip,
      compileArg_unknown field.asString op v hop hvC h1 h2 h3 h4 h5]
    rfl
  refine ⟨hgen, ?_, ?_, hdrop, rfl, rfl, ?_, rfl⟩
  · intro field op v hf hop hmem hv hvC
    have h := hgen field op [v] hf hop hmem (by simp)
      (by intro a ha; rcases List.mem_singleton.mp ha with rfl; exact hv)
      (by intro a ha; rcases List.mem_singleton.mp ha with rfl; exact hvC)
    simpa [joinSep] using h
  · intro field op v1 v2 hf hop hmem h1 h2 h3 h4
    have h := hgen field op [v1, v2] hf hop hmem (by simp)
      (by
        intro a ha
        rcases List.mem_cons.mp ha with rfl | ha2
        · exact h1
        · rcases List.mem_singleton.mp ha2 with rfl
          exact h3)
      (by
        intro a ha
        rcases List.mem_cons.mp ha with rfl | ha2
        · exact h2
        · rcases List.mem_singleton.mp ha2 with rfl
          exact h4)
    simpa [joinSep] using h
  · intro op h1 h2 h3 h4 h5 h6
    simp [compileParam, h1, h2, h3, h4, h5, h6]

theorem C3_operation_dispatch_witness :
    dataTableFilterL (clauseToken "price".data ("lte".data ++ ':' :: "10".data))
      = .ok (some [[.fieldOp "price" "lte" (.one "10")]]) ∧
    compileParam "a" ["foo", "1"] = .ok none := by
  constructor
  · exact C3_operation_dispatch.2.1 "price".data "lte".data "10".data
      (by decide) (by decide) (by decide) (by decide) (by decide)
  · exact C3_operation_dispatch.2.2.2.2.2.2.1 "foo" (by decide) (by decide)
      (by decide) (by decide) (by decide) (by decide)

/-- C3 counterexample: the operation name constructor is outside the fixed
set and is neither match nor contains, yet its clause is not dropped: the
lookup hits Object.prototype.constructor, whose call returns an object
that becomes a constraint. -/
theorem C3_counterexample :
    dataTableFilter "a(constructor:1)" ≠ .ok none ∧
    dataTableFilter "a(constructor:1)" = .ok (some [[.protoResult "constructor" "a"]]) :=
  ⟨by decide, rfl⟩

/-- C4 (corrected): pattern flags are colon-separated, not comma-separated.
The filter "name(match:Bob:i)" compiles to the anchored case-insensitive
pattern over Bob, matching bob and BOB but not Bobby, and
"name(contains:ob:i)" compiles to the case-insensitive global substring
pattern, matching Bob and bob but not Bxy. -/
theorem C4_pattern_flags :
    dataTableFilter "name(match:Bob:i)"
      = .ok (some [[.fieldPayload "name" (.regex "^Bob$" "i")]]) ∧
    regexTest "^Bob$" "i" "bob" = true ∧
    regexTest "^Bob$" "i" "BOB" = true ∧
    regexTest "^Bob$" "i" "Bobby" = false ∧
    dataTableFilter "name(contains:ob:i)"
      = .ok (some [[.fieldPayload "name" (.regex "ob" "ig")]]) ∧
    regexTest "ob" "ig" "Bob" = true ∧
    regexTest "ob" "ig" "bob" = true ∧
    regexTest "ob" "ig" "Bxy" = false :=
  ⟨rfl, rfl, rfl, rfl, rfl, rfl, rfl, rfl⟩

/-- C4 counterexample: with the comma of the specification example, the i
is split off as a separate argument and becomes its own bare-match clause;
the first clause is an exact, case-sensitive equality against Bob, which
does not accept bob. -/
theorem C4_counterexample :
    dataTableFilter "name(match:Bob,i)"
      = .ok (some [[.fieldPayload "name" (.lit "Bob"),
                    .fieldPayload "name" (.lit "i")]]) ∧
    dataTableFilter "name(match:Bob,i)"
      ≠ .ok (some [[.fieldPayload "name" (.regex "^Bob$" "i")]]) ∧
    payloadAccepts (.lit "Bob") "bob" = false :=
  ⟨rfl, by decide, rfl⟩

/-- C5 (code bug): dataTableFilter is not total on filter strings.  The
operation name proto reaches the inherited Object.prototype accessor
through the property lookup of the operations table, and invoking the
resulting non-function value throws a TypeError at compile time. -/
theorem C5_throws : dataTableFilter "a(__proto__:x)" = .error .typeError := rfl

/-- C6 (corrected): a leading delimiter is not ignored.  It occupies the
first clause position of the loop and shifts every following token into a
delimiter position, so a filter of ordinary delimiter-separated clauses
prefixed with a delimiter compiles to pass-through instead of compiling to
the same predicate. -/
theorem C6_leading_delim (d : Char) (cs : List Char)
    (hd : d = ',' ∨ d = ';')
    (hodd : ∀ t ∈ oddIdx (tokenize cs), t = [','] ∨ t = [';']) :
    dataTableFilterL (d :: cs) = .ok none := by
  apply filterL_passthrough
  intro t ht
  have htok : tokenize (d :: cs) = [d] :: tokenize cs := by
    unfold tokenize
    rcases hd with rfl | rfl <;> simp [tokenizeF, List.length]
  rw [htok] at ht
  have he : evenIdx ([d] :: tokenize cs) = [d] :: oddIdx (tokenize cs) := by
    cases htl : tokenize cs with
    | nil => rfl
    | cons a l => rfl
  rw [he] at ht
  rcases List.mem_cons.mp ht with rfl | ht2
  · rcases hd with rfl | rfl
    · rfl
    · rfl
  · rcases hodd t ht2 with rfl | rfl
    · rfl
    · rfl

theorem C6_leading_delim_witness : dataTableFilter ";a(eq:1)" = .ok none :=
  C6_leading_delim ';' "a(eq:1)".data (Or.inr rfl) (by decide)

/-- C6 counterexample: prefixing the filter "a(eq:1)" with a semicolon
changes the compiled result from a one-clause predicate to pass-through. -/
theorem C6_counterexample :
    dataTableFilter "a(eq:1)" = .ok (some [[.fieldOp "a" "eq" (.one "1")]]) ∧
    dataTableFilter ";a(eq:1)" = .ok none ∧
    dataTableFilter ";a(eq:1)" ≠ dataTableFilter "a(eq:1)" :=
  ⟨rfl, rfl, by decide⟩

/-- C7 (corrected): for numeric inputs the pagination arithmetic is
limit = max(itemsPerPage, 0) and skip = max(page - 1, 0) * limit, matching
all four concrete examples, and numeric strings parse the same way; but a
non-numeric string is not clamped: parseInt yields NaN, the comparisons
with zero are false on NaN, and NaN propagates into skip and limit. -/
theorem C7_pagination :
    (∀ p i : ℤ, dataTablePaginate 10 (.num p) (.num i)
        = (.int (max (p - 1) 0 * max i 0), .int (max i 0))) ∧
    dataTablePaginate 10 (.num 1) (.num 10) = (.int 0, .int 10) ∧
    dataTablePaginate 10 (.num 3) (.num 20) = (.int 40, .int 20) ∧
    dataTablePaginate 10 (.num 0) (.num 10) = (.int 0, .int 10) ∧
    dataTablePaginate 10 (.num 1) (.num (-5)) = (.int 0, .int 0) ∧
    dataTablePaginate 10 (.str "3") (.str "20") = (.int 40, .int 20) ∧
    dataTablePaginate 10 (.str "abc") (.str "xyz") = (.nan, .nan) := by
  refine ⟨?_, rfl, rfl, rfl, rfl, rfl, rfl⟩
  intro p i
  by_cases hp : p - 1 < 0 <;> by_cases hi : i < 0 <;>
    simp [dataTablePaginate, jltZero, jsubOne, jmul, hp, hi] <;>
    first
    | omega
    | exact ⟨by
        rw [sup_eq_left.mpr (show (0 : ℤ) ≤ p - 1 by omega),
          sup_eq_left.mpr (show (0 : ℤ) ≤ i by omega)],
        by omega⟩

/-- C7 counterexample: a textual page that parses to no number gives a NaN
skip, not the clamped offset zero the claim requires. -/
theorem C7_counterexample :
    dataTablePaginate 10 (.str "abc") (.num 10) = (.nan, .int 10) ∧
    dataTablePaginate 10 (.str "abc") (.num 10) ≠ (.int 0, .int 10) :=
  ⟨rfl, by decide⟩

/-- C8 (corrected): an absent itemsPerPage is replaced by the default
parameter value 0, so the limit is 0 (unbounded) and the configured
defaultItemsPerPage is not used; the configured default is reachable only
when itemsPerPage is passed as null.  An absent page defaults to 1, giving
offset 0. -/
theorem C8_defaults :
    (∀ dflt : ℤ, dataTablePaginate dflt .undef .undef = (.int 0, .int 0)) ∧
    (∀ dflt : ℤ, dataTablePaginate dflt .null .null = (.int 0, .int (max dflt 0))) ∧
    (∀ dflt i : ℤ, dataTablePaginate dflt .undef (.num i) = (.int 0, .int (max i 0))) := by
  refine ⟨fun dflt => rfl, ?_, ?_⟩
  · intro dflt
    by_cases hd : dflt < 0 <;> simp [dataTablePaginate, jltZero, jsubOne, jmul, hd] <;> omega
  · intro dflt i
    by_cases hi : i < 0 <;> simp [dataTablePaginate, jltZero, jsubOne, jmul, hi] <;> omega

/-- C8 counterexample: with both arguments absent and the configured
default page size 10, the computed limit is 0, not 10. -/
theorem C8_counterexample :
    dataTablePaginate 10 .undef .undef = (.int 0, .int 0) ∧
    dataTablePaginate 10 .undef .undef ≠ (.int 0, .int 10) :=
  ⟨rfl, by decide⟩

/-- C9 (confirmed): the aggregation result of dataTableGetFilterList is
strictly ascending by value (hence each distinct value appears exactly
once), its counts sum to the number of occurrences after the six unwind
stages, each count is the number of flattened occurrences of its value,
the emitted values are exactly the flattened occurrences, and the
six-level boundary is exact: a value nested six levels deep flattens to
the scalar while a value nested seven levels deep groups as the remaining
one-level array. -/
theorem C9_distinct_aggregation :
    (∀ docs : List (Option BVal),
      List.Pairwise (fun p q => bcmp p.1 q.1 = .lt) (dataTableGetFilterList docs)) ∧
    (∀ docs : List (Option BVal),
      ((dataTableGetFilterList docs).map Prod.fst).Nodup) ∧
    (∀ docs : List (Option BVal),
      ((dataTableGetFilterList docs).map Prod.snd).sum
        = (unwindStep^[6] (docs.filterMap id)).length) ∧
    (∀ docs : List (Option BVal),
      (dataTableGetFilterList docs).map Prod.snd
        = (dataTableGetFilterList docs).map
            (fun p => (unwindStep^[6] (docs.filterMap id)).countP (bv p.1))) ∧
    (∀ (docs : List (Option BVal)) (x : BVal),
      x ∈ (dataTableGetFilterList docs).map Prod.fst
        ↔ x ∈ unwindStep^[6] (docs.filterMap id)) ∧
    dataTableGetFilterList [some (wrapN 6 (.int 5))] = [(.int 5, 1)] ∧
    dataTableGetFilterList [some (wrapN 7 (.int 5))]
      = [(.arr (.cons (.int 5) .nil), 1)] ∧
    dataTableGetFilterList
        [some (.arr (bl [.int 2, .int 1])), some (.int 1), none, some .null]
      = [(.int 1, 2), (.int 2, 1)] := by
  have hpair : ∀ docs : List (Option BVal),
      List.Pairwise (fun p q => bcmp p.1 q.1 = .lt) (dataTableGetFilterList docs) :=
    fun docs => rle_pairwise _ (sortB_pairwise _)
  refine ⟨hpair, ?_, ?_, ?_, ?_, rfl, rfl, rfl⟩
  · intro docs
    have h := hpair docs
    unfold List.Nodup
    rw [List.pairwise_map]
    apply h.imp
    intro a b hab he
    rw [he] at hab
    rw [(bcmp_eq_iff _ _).mpr rfl] at hab
    cases hab
  · intro docs
    unfold dataTableGetFilterList
    rw [rle_snd_sum, sortB_length]
  · intro docs
    unfold dataTableGetFilterList
    rw [rle_counts _ (sortB_pairwise _)]
    apply List.map_congr_left
    intro p hp
    rw [sortB_countP]
  · intro docs x
    unfold dataTableGetFilterList
    rw [rle_fst_mem, sortB_mem]

end MQDT
